import Mathlib

/-!
# ShortDoubleMetaphone: packed 16-bit metaphone keys

A shallow embedding of `MetaphoneLib/ShortDoubleMetaphone.h`.

* `tchar` is modelled by `Char`; a `const tchar*` C string is modelled by the
  list of characters found in memory from the pointer on, the terminating NUL
  being implicit at the end of the list.  A NUL inside the list ends the
  string early, exactly as the `while (currentChar = *currentCharPtr)` loop does.
* `unsigned short` is modelled by `Nat`, with the 16-bit truncation of
  `result <<= 4` written out as `% 65536`.
-/

namespace MetaphoneLib

/-! ## IDs for Metaphone characters, as represented in an unsigned short -/

def METAPHONE_A : Nat := 0x01
def METAPHONE_F : Nat := 0x02
def METAPHONE_H : Nat := 0x03
def METAPHONE_J : Nat := 0x04
def METAPHONE_K : Nat := 0x05
def METAPHONE_L : Nat := 0x06
def METAPHONE_M : Nat := 0x07
def METAPHONE_N : Nat := 0x08
def METAPHONE_P : Nat := 0x09
def METAPHONE_S : Nat := 0x0A
def METAPHONE_T : Nat := 0x0B
def METAPHONE_R : Nat := 0x0C
def METAPHONE_X : Nat := 0x0D
def METAPHONE_0 : Nat := 0x0E
def METAPHONE_SPACE : Nat := 0x0F
def METAPHONE_NULL : Nat := 0x00
def METAPHONE_FX : Nat := (METAPHONE_F <<< 4) ||| METAPHONE_X
def METAPHONE_KL : Nat := (METAPHONE_K <<< 4) ||| METAPHONE_L
def METAPHONE_KN : Nat := (METAPHONE_K <<< 4) ||| METAPHONE_N
def METAPHONE_KS : Nat := (METAPHONE_K <<< 4) ||| METAPHONE_S
def METAPHONE_SK : Nat := (METAPHONE_S <<< 4) ||| METAPHONE_K
def METAPHONE_TK : Nat := (METAPHONE_T <<< 4) ||| METAPHONE_K
def METAPHONE_TS : Nat := (METAPHONE_T <<< 4) ||| METAPHONE_S

def METAPHONE_INVALID_KEY : Nat := 0xffff

/-- Modelled from the spec: the base class `DoubleMetaphone4` is declared in
`DoubleMetaphone.h`, which is not part of the sources.  Only what this class
reads of it is kept: the primary phonetic code string (`getPrimaryKey()`) and
the optional alternate one (`getAlternateKey()`, a null pointer when the word
has no alternate key). -/
structure DoubleMetaphone4 where
  primaryKey : List Char
  alternateKey : Option (List Char)
  deriving DecidableEq, Repr

/-- The class `ShortDoubleMetaphone`: the base class and the two private
`unsigned short` members. -/
structure ShortDoubleMetaphone extends DoubleMetaphone4 where
  m_primaryShortKey : Nat
  m_alternateShortKey : Nat
  deriving DecidableEq, Repr

namespace ShortDoubleMetaphone

/-- The terminating character of a C string. -/
def NUL : Char := Char.ofNat 0

/-- The `if / else if` chain in the body of the loop of `metaphoneKeyToUshort`:
the value given to `charResult` for the character `currentChar`. -/
def charResult (currentChar : Char) : Nat :=
  if currentChar = 'A' then METAPHONE_A
  else if currentChar = 'P' then METAPHONE_P
  else if currentChar = 'S' then METAPHONE_S
  else if currentChar = 'K' then METAPHONE_K
  else if currentChar = 'X' then METAPHONE_X
  else if currentChar = 'J' then METAPHONE_J
  else if currentChar = 'T' then METAPHONE_T
  else if currentChar = 'F' then METAPHONE_F
  else if currentChar = 'N' then METAPHONE_N
  else if currentChar = 'H' then METAPHONE_H
  else if currentChar = 'M' then METAPHONE_M
  else if currentChar = 'L' then METAPHONE_L
  else if currentChar = 'R' then METAPHONE_R
  else if currentChar = ' ' then METAPHONE_SPACE
  else if currentChar = NUL then METAPHONE_0
  else 0x00

/-- The `while` loop of `metaphoneKeyToUshort`, started with the accumulator
`result` on the characters `key`.  The loop ends at the first NUL (or at the
end of the list, where the implicit terminator stands); otherwise
`result <<= 4` (truncated to 16 bits) and `result |= charResult`. -/
def keyLoop : List Char → Nat → Nat
  | [], result => result
  | currentChar :: rest, result =>
    if currentChar = NUL then result
    else keyLoop rest (((result <<< 4) % 65536) ||| charResult currentChar)

/-- Converts a metaphone key to the packed ushort representation. -/
def metaphoneKeyToUshort (key : List Char) : Nat :=
  keyLoop key 0

/-- The body of the constructor `ShortDoubleMetaphone(tchar* word)`, run once the
base class has been initialised to `base`: compute the ushort version of the keys. -/
def ofKeys (base : DoubleMetaphone4) : ShortDoubleMetaphone :=
  { toDoubleMetaphone4 := base
    m_primaryShortKey := metaphoneKeyToUshort base.primaryKey
    m_alternateShortKey :=
      match base.alternateKey with
      | some alternateKey => metaphoneKeyToUshort alternateKey
      | none => METAPHONE_INVALID_KEY }

/-- The constructor `ShortDoubleMetaphone(tchar* word)`.  The constructor of the
base class, `DoubleMetaphone4(word)`, is the external phonetic encoder and is
taken as the parameter `encoder`. -/
def ofWord (encoder : List Char → DoubleMetaphone4) (word : List Char) :
    ShortDoubleMetaphone :=
  ofKeys (encoder word)

/-- Default ctor: both short keys are set to 0.  The state `base` left by the
default constructor of the base class is a parameter. -/
def mkDefault (base : DoubleMetaphone4) : ShortDoubleMetaphone :=
  { toDoubleMetaphone4 := base
    m_primaryShortKey := 0
    m_alternateShortKey := 0 }

/-- Assignment operator: the base class part and both keys are copied from `rhs`. -/
def assign (_this rhs : ShortDoubleMetaphone) : ShortDoubleMetaphone :=
  { toDoubleMetaphone4 := rhs.toDoubleMetaphone4
    m_primaryShortKey := rhs.m_primaryShortKey
    m_alternateShortKey := rhs.m_alternateShortKey }

/-- Equality operator `operator==`: the four-way comparison of the ushort keys. -/
def operatorEq (self rhs : ShortDoubleMetaphone) : Bool :=
  (self.m_primaryShortKey == rhs.m_primaryShortKey) ||
  (rhs.m_alternateShortKey != METAPHONE_INVALID_KEY
    && self.m_primaryShortKey == rhs.m_alternateShortKey) ||
  (self.m_alternateShortKey != METAPHONE_INVALID_KEY
    && self.m_alternateShortKey == rhs.m_primaryShortKey) ||
  (self.m_alternateShortKey != METAPHONE_INVALID_KEY
    && rhs.m_alternateShortKey != METAPHONE_INVALID_KEY
    && self.m_alternateShortKey == rhs.m_alternateShortKey)

/-- Inequality operator `operator!=`: simply negate the `operator==`. -/
def operatorNe (self rhs : ShortDoubleMetaphone) : Bool :=
  !(operatorEq self rhs)

/-- The method `computeKeys(const tchar* word)`.  `DoubleMetaphone4::computeKeys`
is the parameter `baseComputeKeys`, acting on the base class part of the record;
the ushort version of the keys is then computed from the new base state. -/
def computeKeys (baseComputeKeys : DoubleMetaphone4 → List Char → DoubleMetaphone4)
    (self : ShortDoubleMetaphone) (word : List Char) : ShortDoubleMetaphone :=
  let base := baseComputeKeys self.toDoubleMetaphone4 word
  let self1 : ShortDoubleMetaphone := { self with toDoubleMetaphone4 := base }
  let self2 : ShortDoubleMetaphone :=
    { self1 with m_primaryShortKey := metaphoneKeyToUshort self1.primaryKey }
  match self2.alternateKey with
  | some alternateKey =>
    { self2 with m_alternateShortKey := metaphoneKeyToUshort alternateKey }
  | none => { self2 with m_alternateShortKey := METAPHONE_INVALID_KEY }

/-- Gets the ushort representation of the primary metaphone key. -/
def getPrimaryShortKey (self : ShortDoubleMetaphone) : Nat :=
  self.m_primaryShortKey

/-- Gets the ushort representation of the alternate metaphone key, or
`METAPHONE_INVALID_KEY` if the word has no alternate key by metaphone. -/
def getAlternateShortKey (self : ShortDoubleMetaphone) : Nat :=
  self.m_alternateShortKey

/-! ## Vocabulary of the specification -/

/-- The symbol codes of the closed alphabet, as the specification tabulates them. -/
def symbolTable : List (Char × Nat) :=
  [('A', 1), ('F', 2), ('H', 3), ('J', 4), ('K', 5), ('L', 6), ('M', 7), ('N', 8), ('P', 9),
   ('S', 10), ('T', 11), ('R', 12), ('X', 13), (' ', 15)]

/-- The closed Symbol Alphabet: the thirteen letters and the space symbol. -/
def symbolAlphabet : List Char := symbolTable.map Prod.fst

/-- The symbol code of a character: its entry in `symbolTable`, and 0 for any
character that has none. -/
def specSymbolCode (c : Char) : Nat :=
  (symbolTable.lookup c).getD 0

/-- The code string of four space symbols. -/
def fourSpaces : List Char := [' ', ' ', ' ', ' ']

/-- The last four characters of a code string (all of it when it is shorter). -/
def lastFour (s : List Char) : List Char := s.drop (s.length - 4)

/-- The readings of a word: its primary code string, and its alternate one when present. -/
def readings (base : DoubleMetaphone4) : List (List Char) :=
  base.primaryKey :: base.alternateKey.toList

/-- The readings of a word that the record can tell apart from "no alternate":
an alternate code string equal to `fourSpaces` is left out. -/
def effectiveReadings (base : DoubleMetaphone4) : List (List Char) :=
  base.primaryKey :: (base.alternateKey.filter (fun alt => alt ≠ fourSpaces)).toList

/-- The optional-alternate model of a record: the primary key, and the alternate
key unless the stored one is the sentinel. -/
def toOptional (r : ShortDoubleMetaphone) : Nat × Option Nat :=
  (r.m_primaryShortKey,
    if r.m_alternateShortKey = METAPHONE_INVALID_KEY then none else some r.m_alternateShortKey)

/-- The present keys of a record in the optional-alternate model. -/
def presentKeys (r : Nat × Option Nat) : List Nat :=
  r.1 :: r.2.toList

/-- The fuzzy equality of the specification on the optional-alternate model:
any of the four conditions holds. -/
def fuzzyEqualsSpec (a b : Nat × Option Nat) : Bool :=
  (a.1 == b.1) ||
  (match b.2 with
    | some balt => a.1 == balt
    | none => false) ||
  (match a.2 with
    | some aalt => aalt == b.1
    | none => false) ||
  (match a.2, b.2 with
    | some aalt, some balt => aalt == balt
    | _, _ => false)

/-! ## Arithmetic of the accumulator -/

theorem lor_eq_add (a b k : Nat) (ha : a % 2 ^ k = 0) (hb : b < 2 ^ k) : a ||| b = a + b := by
  have h := Nat.mul_add_lt_is_or hb (a / 2 ^ k)
  have e : 2 ^ k * (a / 2 ^ k) = a := Nat.mul_div_cancel' (Nat.dvd_of_mod_eq_zero ha)
  rw [e] at h
  exact h.symm

theorem ite_lt16 {p : Prop} [Decidable p] {a b : Nat} (ha : a < 16) (hb : b < 16) :
    (if p then a else b) < 16 := by
  split <;> assumption

theorem charResult_lt (c : Char) : charResult c < 16 := by
  unfold charResult
  repeat' (first | apply ite_lt16 | decide)

/-- One turn of the loop: shifting within 16 bits and or-ing a nibble in. -/
theorem step_eq (r c : Nat) (hc : c < 16) :
    ((r <<< 4) % 65536) ||| c = (r % 4096) * 16 + c := by
  rw [lor_eq_add _ c 4 _ (by simpa using hc)]
  · rw [Nat.shiftLeft_eq]; omega
  · rw [Nat.shiftLeft_eq]; omega

theorem pack_eq_add (c1 c2 c3 c4 : Nat) (b2 : c2 < 16) (b3 : c3 < 16) (b4 : c4 < 16) :
    (c1 <<< 12) ||| (c2 <<< 8) ||| (c3 <<< 4) ||| c4 = c1 * 4096 + c2 * 256 + c3 * 16 + c4 := by
  simp only [Nat.shiftLeft_eq]
  rw [lor_eq_add (c1 * 2 ^ 12) (c2 * 2 ^ 8) 12 (by omega) (by omega),
    lor_eq_add _ (c3 * 2 ^ 4) 8 (by omega) (by omega),
    lor_eq_add _ c4 4 (by omega) (by omega)]

/-! ## The symbol table and the comparison chain -/

theorem mem_symbolAlphabet_iff (c : Char) :
    c ∈ symbolAlphabet ↔ (c = 'A' ∨ c = 'F' ∨ c = 'H' ∨ c = 'J' ∨ c = 'K' ∨ c = 'L' ∨ c = 'M'
      ∨ c = 'N' ∨ c = 'P' ∨ c = 'S' ∨ c = 'T' ∨ c = 'R' ∨ c = 'X' ∨ c = ' ') := by
  simp only [symbolAlphabet, symbolTable, List.map, List.mem_cons, List.mem_singleton,
    List.not_mem_nil, or_false]

theorem charResult_of_not_mem (c : Char) (h : c ∉ symbolAlphabet) (h0 : c ≠ NUL) :
    charResult c = 0 := by
  rw [mem_symbolAlphabet_iff] at h
  simp only [not_or] at h
  obtain ⟨hA, hF, hH, hJ, hK, hL, hM, hN, hP, hS, hT, hR, hX, hs⟩ := h
  simp only [charResult, if_neg hA, if_neg hF, if_neg hH, if_neg hJ, if_neg hK, if_neg hL,
    if_neg hM, if_neg hN, if_neg hP, if_neg hS, if_neg hT, if_neg hR, if_neg hX, if_neg hs,
    if_neg h0]

theorem specSymbolCode_of_not_mem (c : Char) (h : c ∉ symbolAlphabet) :
    specSymbolCode c = 0 := by
  rw [mem_symbolAlphabet_iff] at h
  simp only [not_or] at h
  obtain ⟨hA, hF, hH, hJ, hK, hL, hM, hN, hP, hS, hT, hR, hX, hs⟩ := h
  have e : ∀ d : Char, c ≠ d → (c == d) = false := fun d hd => by simpa using hd
  simp only [specSymbolCode, symbolTable, List.lookup, e _ hA, e _ hF, e _ hH, e _ hJ, e _ hK,
    e _ hL, e _ hM, e _ hN, e _ hP, e _ hS, e _ hT, e _ hR, e _ hX, e _ hs, Option.getD_none]

/-- The comparison chain of the code computes the tabulated symbol codes. -/
theorem charResult_eq_spec (c : Char) (h0 : c ≠ NUL) : charResult c = specSymbolCode c := by
  by_cases h : c ∈ symbolAlphabet
  · rw [mem_symbolAlphabet_iff] at h
    rcases h with h | h | h | h | h | h | h | h | h | h | h | h | h | h <;> subst h <;> decide
  · rw [charResult_of_not_mem c h h0, specSymbolCode_of_not_mem c h]

theorem ne_NUL_of_mem (c : Char) (h : c ∈ symbolAlphabet) : c ≠ NUL := by
  rw [mem_symbolAlphabet_iff] at h
  rcases h with h | h | h | h | h | h | h | h | h | h | h | h | h | h <;> subst h <;> decide

/-- A recognised symbol never gets the unmapped code 0. -/
theorem charResult_pos_of_mem (c : Char) (h : c ∈ symbolAlphabet) : 1 ≤ charResult c := by
  rw [mem_symbolAlphabet_iff] at h
  rcases h with h | h | h | h | h | h | h | h | h | h | h | h | h | h <;> subst h <;> decide

theorem charResult_ne_14 (c : Char) (h0 : c ≠ NUL) : charResult c ≠ 14 := by
  by_cases h : c ∈ symbolAlphabet
  · rw [mem_symbolAlphabet_iff] at h
    rcases h with h | h | h | h | h | h | h | h | h | h | h | h | h | h <;> subst h <;> decide
  · rw [charResult_of_not_mem c h h0]; decide

theorem charResult_eq_15_iff (c : Char) : charResult c = 15 ↔ c = ' ' := by
  constructor
  · intro h15
    by_cases h0 : c = NUL
    · subst h0; revert h15; decide
    by_cases h : c ∈ symbolAlphabet
    · rw [mem_symbolAlphabet_iff] at h
      rcases h with h | h | h | h | h | h | h | h | h | h | h | h | h | h <;> subst h <;>
        first | rfl | (revert h15; decide)
    · rw [charResult_of_not_mem c h h0] at h15; omega
  · intro h; subst h; decide

theorem charResult_injOn (c d : Char) (hc : c ∈ symbolAlphabet) (hd : d ∈ symbolAlphabet)
    (h : charResult c = charResult d) : c = d := by
  have key : ∀ x ∈ symbolAlphabet,
      (symbolTable.map Prod.swap).lookup (charResult x) = some x := by
    intro x hx
    rw [mem_symbolAlphabet_iff] at hx
    rcases hx with h | h | h | h | h | h | h | h | h | h | h | h | h | h <;> subst h <;> decide
  have h1 := key c hc
  rw [h, key d hd] at h1
  exact (Option.some.inj h1).symm

/-! ## The loop -/

theorem keyLoop_cons (c : Char) (cs : List Char) (r : Nat) (hc : c ≠ NUL) :
    keyLoop (c :: cs) r = keyLoop cs ((r % 4096) * 16 + charResult c) := by
  rw [keyLoop, if_neg hc, step_eq _ _ (charResult_lt c)]

theorem keyLoop_append (pre post : List Char) (r : Nat) (hpre : ∀ c ∈ pre, c ≠ NUL) :
    keyLoop (pre ++ post) r = keyLoop post (keyLoop pre r) := by
  induction pre generalizing r with
  | nil => rfl
  | cons c cs ih =>
    have hc : c ≠ NUL := hpre c (List.mem_cons_self c cs)
    have hcs : ∀ x ∈ cs, x ≠ NUL := fun x hx => hpre x (List.mem_cons_of_mem c hx)
    rw [List.cons_append, keyLoop_cons _ _ _ hc, keyLoop_cons _ _ _ hc, ih _ hcs]

theorem keyLoop_snoc (pre : List Char) (c : Char) (r : Nat) (hpre : ∀ x ∈ pre, x ≠ NUL)
    (hc : c ≠ NUL) :
    keyLoop (pre ++ [c]) r = (keyLoop pre r % 4096) * 16 + charResult c := by
  rw [keyLoop_append _ _ _ hpre, keyLoop_cons _ _ _ hc, keyLoop]

/-- Four non-NUL characters leave their codes in the four nibbles of the
accumulator, whatever it held before. -/
theorem keyLoop_four (s1 s2 s3 s4 : Char) (r : Nat)
    (h1 : s1 ≠ NUL) (h2 : s2 ≠ NUL) (h3 : s3 ≠ NUL) (h4 : s4 ≠ NUL) :
    keyLoop [s1, s2, s3, s4] r
      = charResult s1 * 4096 + charResult s2 * 256 + charResult s3 * 16 + charResult s4 := by
  rw [keyLoop_cons _ _ _ h1, keyLoop_cons _ _ _ h2, keyLoop_cons _ _ _ h3,
    keyLoop_cons _ _ _ h4, keyLoop]
  have b1 := charResult_lt s1
  have b2 := charResult_lt s2
  have b3 := charResult_lt s3
  have b4 := charResult_lt s4
  omega

/-- The key of a string without NUL is below `16 ^ length`. -/
theorem keyLoop_lt_pow (s : List Char) (hs : ∀ c ∈ s, c ≠ NUL) :
    keyLoop s 0 < 16 ^ s.length := by
  induction s using List.reverseRecOn with
  | nil => simp [keyLoop]
  | append_singleton pre c ih =>
    have hpre : ∀ x ∈ pre, x ≠ NUL := fun x hx => hs x (List.mem_append_left _ hx)
    have hc : c ≠ NUL := hs c (List.mem_append_right _ (List.mem_singleton_self c))
    have b := charResult_lt c
    have i := ih hpre
    rw [keyLoop_snoc _ _ _ hpre hc, List.length_append, List.length_singleton, pow_succ]
    omega

theorem lastFour_of_length_le (s : List Char) (h : s.length ≤ 4) : lastFour s = s := by
  unfold lastFour
  rw [Nat.sub_eq_zero_of_le h, List.drop_zero]

theorem length_lastFour (s : List Char) (h : 4 ≤ s.length) : (lastFour s).length = 4 := by
  unfold lastFour
  rw [List.length_drop]
  omega

theorem mem_of_mem_lastFour (s : List Char) (c : Char) (h : c ∈ lastFour s) : c ∈ s :=
  List.mem_of_mem_drop h

theorem eq_four_of_length (t : List Char) (h : t.length = 4) :
    ∃ a b c d, t = [a, b, c, d] := by
  match t, h with
  | [a, b, c, d], _ => exact ⟨a, b, c, d, rfl⟩

/-- Only the last four characters of a string without NUL reach the key. -/
theorem key_eq_key_lastFour (s : List Char) (hs : ∀ c ∈ s, c ≠ NUL) :
    metaphoneKeyToUshort s = metaphoneKeyToUshort (lastFour s) := by
  by_cases hlen : s.length ≤ 4
  · rw [lastFour_of_length_le s hlen]
  · have h4 : 4 ≤ s.length := by omega
    obtain ⟨a, b, c, d, e⟩ := eq_four_of_length (lastFour s) (length_lastFour s h4)
    have hm : ∀ x ∈ [a, b, c, d], x ≠ NUL := fun x hx =>
      hs x (mem_of_mem_lastFour s x (e ▸ hx))
    have ha := hm a (by simp)
    have hb := hm b (by simp)
    have hc := hm c (by simp)
    have hd := hm d (by simp)
    have split : s = s.take (s.length - 4) ++ [a, b, c, d] := by
      rw [← e]; exact (List.take_append_drop _ s).symm
    have hpre : ∀ x ∈ s.take (s.length - 4), x ≠ NUL := fun x hx =>
      hs x (List.mem_of_mem_take hx)
    unfold metaphoneKeyToUshort
    rw [e]
    conv_lhs => rw [split]
    rw [keyLoop_append _ _ _ hpre, keyLoop_four _ _ _ _ _ ha hb hc hd,
      keyLoop_four _ _ _ _ _ ha hb hc hd]

/-- A string of at most four characters without NUL packs to the sentinel only
when it is the string of four spaces. -/
theorem key_eq_invalid_iff_of_short (t : List Char) (ht : ∀ c ∈ t, c ≠ NUL)
    (hlen : t.length ≤ 4) :
    metaphoneKeyToUshort t = METAPHONE_INVALID_KEY ↔ t = fourSpaces := by
  constructor
  · intro h
    by_cases h4 : t.length = 4
    · obtain ⟨a, b, c, d, e⟩ := eq_four_of_length t h4
      subst e
      have ha := ht a (by simp)
      have hb := ht b (by simp)
      have hc := ht c (by simp)
      have hd := ht d (by simp)
      unfold metaphoneKeyToUshort at h
      rw [keyLoop_four _ _ _ _ _ ha hb hc hd] at h
      have b1 := charResult_lt a
      have b2 := charResult_lt b
      have b3 := charResult_lt c
      have b4 := charResult_lt d
      have v : (65535 : Nat) = METAPHONE_INVALID_KEY := by decide
      rw [← v] at h
      have e1 : charResult a = 15 := by omega
      have e2 : charResult b = 15 := by omega
      have e3 : charResult c = 15 := by omega
      have e4 : charResult d = 15 := by omega
      rw [charResult_eq_15_iff] at e1 e2 e3 e4
      subst e1 e2 e3 e4
      rfl
    · have hlt := keyLoop_lt_pow t ht
      have hp : 16 ^ t.length ≤ 16 ^ 3 := Nat.pow_le_pow_right (by decide) (by omega)
      have v : (65535 : Nat) = METAPHONE_INVALID_KEY := by decide
      unfold metaphoneKeyToUshort at h
      rw [← v] at h
      omega
  · intro h
    subst h
    decide

/-- The exact extent of the sentinel among the keys of strings without NUL. -/
theorem key_eq_invalid_iff (s : List Char) (hs : ∀ c ∈ s, c ≠ NUL) :
    metaphoneKeyToUshort s = METAPHONE_INVALID_KEY ↔ lastFour s = fourSpaces := by
  rw [key_eq_key_lastFour s hs]
  apply key_eq_invalid_iff_of_short
  · exact fun c hc => hs c (mem_of_mem_lastFour s c hc)
  · unfold lastFour
    rw [List.length_drop]
    omega

theorem snoc_cases (t : List Char) : t = [] ∨ ∃ pt d, t = pt ++ [d] := by
  induction t using List.reverseRecOn with
  | nil => exact Or.inl rfl
  | append_singleton pt d _ => exact Or.inr ⟨pt, d, rfl⟩

theorem key_singleton (c : Char) (hc : c ≠ NUL) : metaphoneKeyToUshort [c] = charResult c := by
  unfold metaphoneKeyToUshort
  rw [keyLoop_cons _ _ _ hc, keyLoop]
  omega

theorem key_append_four (pre l4 : List Char) (hpre : ∀ c ∈ pre, c ≠ NUL)
    (hl4 : ∀ c ∈ l4, c ≠ NUL) (hlen : l4.length = 4) :
    metaphoneKeyToUshort (pre ++ l4) = metaphoneKeyToUshort l4 := by
  obtain ⟨a, b, c, d, e⟩ := eq_four_of_length l4 hlen
  subst e
  have ha := hl4 a (by simp)
  have hb := hl4 b (by simp)
  have hc := hl4 c (by simp)
  have hd := hl4 d (by simp)
  unfold metaphoneKeyToUshort
  rw [keyLoop_append _ _ _ hpre, keyLoop_four _ _ _ _ _ ha hb hc hd,
    keyLoop_four _ _ _ _ _ ha hb hc hd]

theorem key_snoc_short (pre : List Char) (c : Char) (hpre : ∀ x ∈ pre, x ≠ NUL)
    (hc : c ≠ NUL) (hlen : pre.length ≤ 3) :
    metaphoneKeyToUshort (pre ++ [c]) = metaphoneKeyToUshort pre * 16 + charResult c := by
  have hlt := keyLoop_lt_pow pre hpre
  have hp : 16 ^ pre.length ≤ 16 ^ 3 := Nat.pow_le_pow_right (by decide) hlen
  unfold metaphoneKeyToUshort
  rw [keyLoop_snoc _ _ _ hpre hc]
  omega

/-- The packing is injective on the strings of at most four recognised symbols. -/
theorem key_inj_short (s t : List Char)
    (hs : ∀ c ∈ s, c ∈ symbolAlphabet) (ht : ∀ c ∈ t, c ∈ symbolAlphabet)
    (ls : s.length ≤ 4) (lt : t.length ≤ 4)
    (h : metaphoneKeyToUshort s = metaphoneKeyToUshort t) : s = t := by
  induction s using List.reverseRecOn generalizing t with
  | nil =>
    rcases snoc_cases t with rfl | ⟨pt, d, rfl⟩
    · rfl
    · exfalso
      have hd : d ∈ symbolAlphabet := ht d (by simp)
      have hpt : ∀ x ∈ pt, x ≠ NUL := fun x hx => ne_NUL_of_mem x (ht x (by simp [hx]))
      have lpt : pt.length ≤ 3 := by simpa using lt
      rw [key_snoc_short pt d hpt (ne_NUL_of_mem d hd) lpt] at h
      have p := charResult_pos_of_mem d hd
      have z : metaphoneKeyToUshort [] = 0 := rfl
      omega
  | append_singleton ps c ih =>
    have hc : c ∈ symbolAlphabet := hs c (by simp)
    have hps : ∀ x ∈ ps, x ∈ symbolAlphabet := fun x hx => hs x (by simp [hx])
    have hpsn : ∀ x ∈ ps, x ≠ NUL := fun x hx => ne_NUL_of_mem x (hps x hx)
    have lps : ps.length ≤ 3 := by simpa using ls
    rw [key_snoc_short ps c hpsn (ne_NUL_of_mem c hc) lps] at h
    have pc := charResult_pos_of_mem c hc
    have bc := charResult_lt c
    rcases snoc_cases t with rfl | ⟨pt, d, rfl⟩
    · exfalso
      have z : metaphoneKeyToUshort [] = 0 := rfl
      omega
    · have hd : d ∈ symbolAlphabet := ht d (by simp)
      have hpt : ∀ x ∈ pt, x ∈ symbolAlphabet := fun x hx => ht x (by simp [hx])
      have hptn : ∀ x ∈ pt, x ≠ NUL := fun x hx => ne_NUL_of_mem x (hpt x hx)
      have lpt : pt.length ≤ 3 := by simpa using lt
      rw [key_snoc_short pt d hptn (ne_NUL_of_mem d hd) lpt] at h
      have bd := charResult_lt d
      have e1 : metaphoneKeyToUshort ps = metaphoneKeyToUshort pt := by omega
      have e2 : charResult c = charResult d := by omega
      rw [ih pt hps hpt (by omega) (by omega) e1, charResult_injOn c d hc hd e2]

/-- The accumulator the loop starts from shows in the nibble just above the
characters consumed, while fewer than four of them are. -/
theorem nibble_of_keyLoop (post : List Char) (r : Nat) (hpost : ∀ x ∈ post, x ≠ NUL)
    (hlen : post.length < 4) :
    keyLoop post r / 16 ^ post.length % 16 = r % 16 := by
  match post, hlen with
  | [], _ => simp [keyLoop]
  | [a], _ =>
    have ha := hpost a (by simp)
    have b1 := charResult_lt a
    rw [keyLoop_cons _ _ _ ha, keyLoop]
    simp only [List.length_singleton, pow_one]
    omega
  | [a, b], _ =>
    have ha := hpost a (by simp)
    have hb := hpost b (by simp)
    have b1 := charResult_lt a
    have b2 := charResult_lt b
    rw [keyLoop_cons _ _ _ ha, keyLoop_cons _ _ _ hb, keyLoop]
    have e : 16 ^ [a, b].length = 256 := by norm_num
    rw [e]
    omega
  | [a, b, c], _ =>
    have ha := hpost a (by simp)
    have hb := hpost b (by simp)
    have hc := hpost c (by simp)
    have b1 := charResult_lt a
    have b2 := charResult_lt b
    have b3 := charResult_lt c
    rw [keyLoop_cons _ _ _ ha, keyLoop_cons _ _ _ hb, keyLoop_cons _ _ _ hc, keyLoop]
    have e : 16 ^ [a, b, c].length = 4096 := by norm_num
    rw [e]
    omega

/-- One turn of the loop keeps the code `METAPHONE_0` out of all four nibbles. -/
theorem nibbles_step (r c : Nat) (hc : c < 16) (hc14 : c ≠ 14)
    (h : r % 16 ≠ 14 ∧ r / 16 % 16 ≠ 14 ∧ r / 256 % 16 ≠ 14 ∧ r / 4096 % 16 ≠ 14) :
    ((r % 4096) * 16 + c) % 16 ≠ 14 ∧ ((r % 4096) * 16 + c) / 16 % 16 ≠ 14
      ∧ ((r % 4096) * 16 + c) / 256 % 16 ≠ 14 ∧ ((r % 4096) * 16 + c) / 4096 % 16 ≠ 14 := by
  omega

/-- The loop never brings the code `METAPHONE_0` into a nibble of the accumulator,
whatever the characters are, NUL included. -/
theorem keyLoop_nibbles (s : List Char) (r : Nat)
    (h : r % 16 ≠ 14 ∧ r / 16 % 16 ≠ 14 ∧ r / 256 % 16 ≠ 14 ∧ r / 4096 % 16 ≠ 14) :
    keyLoop s r % 16 ≠ 14 ∧ keyLoop s r / 16 % 16 ≠ 14 ∧ keyLoop s r / 256 % 16 ≠ 14
      ∧ keyLoop s r / 4096 % 16 ≠ 14 := by
  induction s generalizing r with
  | nil => exact h
  | cons c cs ih =>
    by_cases hc : c = NUL
    · rw [keyLoop, if_pos hc]
      exact h
    · rw [keyLoop_cons _ _ _ hc]
      exact ih _ (nibbles_step r (charResult c) (charResult_lt c) (charResult_ne_14 c hc) h)

/-- The loop keeps the accumulator within 16 bits. -/
theorem keyLoop_lt (s : List Char) (r : Nat) (h : r < 65536) : keyLoop s r < 65536 := by
  induction s generalizing r with
  | nil => exact h
  | cons c cs ih =>
    by_cases hc : c = NUL
    · rw [keyLoop, if_pos hc]
      exact h
    · rw [keyLoop_cons _ _ _ hc]
      have b := charResult_lt c
      exact ih _ (by omega)

theorem lastFour_eq_fourSpaces_iff (s : List Char) :
    lastFour s = fourSpaces ↔ (4 ≤ s.length ∧ ∀ c ∈ lastFour s, c = ' ') := by
  constructor
  · intro h
    constructor
    · have hl := congrArg List.length h
      unfold lastFour at hl
      rw [List.length_drop] at hl
      have h4 : fourSpaces.length = 4 := rfl
      omega
    · rw [h]
      intro c hc
      simpa [fourSpaces] using hc
  · rintro ⟨h4, h⟩
    obtain ⟨a, b, c, d, e⟩ := eq_four_of_length (lastFour s) (length_lastFour s h4)
    rw [e] at h ⊢
    have ha := h a (by simp)
    have hb := h b (by simp)
    have hc := h c (by simp)
    have hd := h d (by simp)
    subst ha hb hc hd
    rfl

/-! ## The comparison -/

theorem operatorEq_iff (a b : ShortDoubleMetaphone) :
    operatorEq a b = true ↔
      (a.m_primaryShortKey = b.m_primaryShortKey
        ∨ (b.m_alternateShortKey ≠ METAPHONE_INVALID_KEY
            ∧ a.m_primaryShortKey = b.m_alternateShortKey)
        ∨ (a.m_alternateShortKey ≠ METAPHONE_INVALID_KEY
            ∧ a.m_alternateShortKey = b.m_primaryShortKey)
        ∨ (a.m_alternateShortKey ≠ METAPHONE_INVALID_KEY
            ∧ b.m_alternateShortKey ≠ METAPHONE_INVALID_KEY
            ∧ a.m_alternateShortKey = b.m_alternateShortKey)) := by
  simp only [operatorEq, Bool.or_eq_true, Bool.and_eq_true, beq_iff_eq, bne_iff_ne, ne_eq,
    or_assoc, and_assoc]

theorem mem_presentKeys_toOptional (r : ShortDoubleMetaphone) (k : Nat) :
    k ∈ presentKeys (toOptional r) ↔
      (k = r.m_primaryShortKey
        ∨ (r.m_alternateShortKey ≠ METAPHONE_INVALID_KEY ∧ k = r.m_alternateShortKey)) := by
  by_cases h : r.m_alternateShortKey = METAPHONE_INVALID_KEY <;>
    simp [presentKeys, toOptional, h]

/-- A code string counted among the effective readings of a well-formed word is
packed into one of the present keys of its record. -/
theorem key_of_mem_effectiveReadings (X : DoubleMetaphone4)
    (hX : ∀ k ∈ readings X, k.length ≤ 4 ∧ ∀ c ∈ k, c ∈ symbolAlphabet)
    (k : List Char) (hk : k ∈ effectiveReadings X) :
    metaphoneKeyToUshort k = (ofKeys X).m_primaryShortKey
      ∨ ((ofKeys X).m_alternateShortKey ≠ METAPHONE_INVALID_KEY
          ∧ metaphoneKeyToUshort k = (ofKeys X).m_alternateShortKey) := by
  obtain ⟨p, alt⟩ := X
  cases alt with
  | none =>
    simp only [effectiveReadings, Option.filter, Option.toList, List.mem_singleton] at hk
    left
    rw [hk]
    rfl
  | some alt =>
    by_cases hf : alt = fourSpaces
    · simp only [effectiveReadings, Option.filter, hf, ne_eq, not_true_eq_false,
        decide_False, Bool.false_eq_true, if_false, Option.toList, List.mem_singleton] at hk
      left
      rw [hk]
      rfl
    · simp only [effectiveReadings, Option.filter, hf, ne_eq, not_false_eq_true,
        decide_True, if_true, Option.toList, List.mem_cons, List.mem_singleton,
        List.not_mem_nil, or_false] at hk
      rcases hk with hk | hk
      · left
        rw [hk]
        rfl
      · right
        subst hk
        have hk := hX k (by simp [readings])
        have hn : ∀ c ∈ k, c ≠ NUL := fun c hc => ne_NUL_of_mem c (hk.2 c hc)
        refine ⟨?_, rfl⟩
        show metaphoneKeyToUshort k ≠ METAPHONE_INVALID_KEY
        rw [Ne, key_eq_invalid_iff_of_short k hn hk.1]
        exact hf

/-! ## The claims -/

/-- C1, nibble packing: a code string of exactly four characters, none of them
NUL, packs to `(c1<<12)|(c2<<8)|(c3<<4)|c4`, where `ci` is the tabulated symbol
code of the i-th character (0 for a character outside the table). -/
theorem metaphoneKeyToUshort_four (s1 s2 s3 s4 : Char)
    (h1 : s1 ≠ NUL) (h2 : s2 ≠ NUL) (h3 : s3 ≠ NUL) (h4 : s4 ≠ NUL) :
    metaphoneKeyToUshort [s1, s2, s3, s4]
      = (specSymbolCode s1 <<< 12) ||| (specSymbolCode s2 <<< 8)
          ||| (specSymbolCode s3 <<< 4) ||| specSymbolCode s4 := by
  rw [← charResult_eq_spec s1 h1, ← charResult_eq_spec s2 h2, ← charResult_eq_spec s3 h3,
    ← charResult_eq_spec s4 h4,
    pack_eq_add _ _ _ _ (charResult_lt s2) (charResult_lt s3) (charResult_lt s4)]
  exact keyLoop_four s1 s2 s3 s4 0 h1 h2 h3 h4

/-- C1 at the code string "NLSN", which packs to 0x86A8. -/
theorem metaphoneKeyToUshort_four_witness :
    ('N' ≠ NUL ∧ 'L' ≠ NUL ∧ 'S' ≠ NUL) ∧
    metaphoneKeyToUshort ['N', 'L', 'S', 'N'] = 0x86A8 ∧
    metaphoneKeyToUshort ['N', 'L', 'S', 'N']
      = (specSymbolCode 'N' <<< 12) ||| (specSymbolCode 'L' <<< 8)
          ||| (specSymbolCode 'S' <<< 4) ||| specSymbolCode 'N' :=
  ⟨by decide, by decide,
    metaphoneKeyToUshort_four 'N' 'L' 'S' 'N' (by decide) (by decide) (by decide) (by decide)⟩

/-- C2 fails as stated: the code string of four spaces is made of characters of
the closed Symbol Alphabet only, and it packs to the sentinel 0xFFFF. -/
theorem fourSpaces_packs_to_invalid_key :
    (∀ c ∈ [' ', ' ', ' ', ' '], c ∈ symbolAlphabet)
      ∧ metaphoneKeyToUshort [' ', ' ', ' ', ' '] = METAPHONE_INVALID_KEY := by
  decide

/-- C2 as amended, sentinel unreachability: a code string of any length made of
characters of the closed Symbol Alphabet only never packs to the sentinel
`METAPHONE_INVALID_KEY`, unless its last four characters are four spaces. -/
theorem metaphoneKeyToUshort_ne_invalid_key (s : List Char)
    (hs : ∀ c ∈ s, c ∈ symbolAlphabet) (hlast : lastFour s ≠ fourSpaces) :
    metaphoneKeyToUshort s ≠ METAPHONE_INVALID_KEY := by
  have hn : ∀ c ∈ s, c ≠ NUL := fun c hc => ne_NUL_of_mem c (hs c hc)
  rw [Ne, key_eq_invalid_iff s hn]
  exact hlast

/-- C2 as amended, at the code string "KTS  " of five symbols. -/
theorem metaphoneKeyToUshort_ne_invalid_key_witness :
    (∀ c ∈ ['K', 'T', 'S', ' ', ' '], c ∈ symbolAlphabet)
      ∧ lastFour ['K', 'T', 'S', ' ', ' '] ≠ fourSpaces
      ∧ metaphoneKeyToUshort ['K', 'T', 'S', ' ', ' '] ≠ METAPHONE_INVALID_KEY :=
  ⟨by decide, by decide,
    metaphoneKeyToUshort_ne_invalid_key ['K', 'T', 'S', ' ', ' '] (by decide) (by decide)⟩

/-- C3 fails as stated: word A has primary "A" and alternate "    " (four
spaces), word B has primary "    " and no alternate.  All code strings are
within the alphabet and of length at most 4, the alternate of A is the primary
of B, and yet the records do not compare equal. -/
theorem any_reading_match_fails :
    (∀ k ∈ readings ⟨['A'], some [' ', ' ', ' ', ' ']⟩,
        k.length ≤ 4 ∧ ∀ c ∈ k, c ∈ symbolAlphabet)
      ∧ (∀ k ∈ readings ⟨[' ', ' ', ' ', ' '], none⟩,
        k.length ≤ 4 ∧ ∀ c ∈ k, c ∈ symbolAlphabet)
      ∧ (∃ k, k ∈ readings ⟨['A'], some [' ', ' ', ' ', ' ']⟩
          ∧ k ∈ readings ⟨[' ', ' ', ' ', ' '], none⟩)
      ∧ operatorEq (ofKeys ⟨['A'], some [' ', ' ', ' ', ' ']⟩)
          (ofKeys ⟨[' ', ' ', ' ', ' '], none⟩) = false :=
  ⟨by decide, by decide, ⟨[' ', ' ', ' ', ' '], by decide, by decide⟩, by decide⟩

/-- C3 as amended, any-reading match: for code strings of length at most 4 over
the closed Symbol Alphabet, if some reading of A is the same code string as some
reading of B, an alternate equal to the string of four spaces not being counted
as a reading, then the record constructed from A compares equal to the record
constructed from B. -/
theorem operatorEq_of_common_reading (A B : DoubleMetaphone4)
    (hA : ∀ k ∈ readings A, k.length ≤ 4 ∧ ∀ c ∈ k, c ∈ symbolAlphabet)
    (hB : ∀ k ∈ readings B, k.length ≤ 4 ∧ ∀ c ∈ k, c ∈ symbolAlphabet)
    (h : ∃ k, k ∈ effectiveReadings A ∧ k ∈ effectiveReadings B) :
    operatorEq (ofKeys A) (ofKeys B) = true := by
  obtain ⟨k, kA, kB⟩ := h
  have eA := key_of_mem_effectiveReadings A hA k kA
  have eB := key_of_mem_effectiveReadings B hB k kB
  rw [operatorEq_iff]
  omega

/-- C3 as amended, at A = ("TS", no alternate) and B = ("KS", alternate "TS"). -/
theorem operatorEq_of_common_reading_witness :
    (∃ k, k ∈ effectiveReadings ⟨['T', 'S'], none⟩
        ∧ k ∈ effectiveReadings ⟨['K', 'S'], some ['T', 'S']⟩)
      ∧ operatorEq (ofKeys ⟨['T', 'S'], none⟩) (ofKeys ⟨['K', 'S'], some ['T', 'S']⟩) = true :=
  ⟨⟨['T', 'S'], by decide, by decide⟩,
    operatorEq_of_common_reading ⟨['T', 'S'], none⟩ ⟨['K', 'S'], some ['T', 'S']⟩
      (by decide) (by decide) ⟨['T', 'S'], by decide, by decide⟩⟩

/-- C4, symmetry of fuzzy equality: for all records `a` and `b`, whatever their
primary and alternate keys (the sentinel included), `a == b` returns the same
boolean as `b == a`. -/
theorem operatorEq_comm (a b : ShortDoubleMetaphone) :
    operatorEq a b = operatorEq b a := by
  rw [Bool.eq_iff_iff, operatorEq_iff, operatorEq_iff]
  omega

/-- C5, equivalence with the optional-alternate model: `a == b` is true exactly
when the present keys of `a` and the present keys of `b` have a common element,
and it is the value of the four conditions of the specification, in which an
absent alternate never matches anything. -/
theorem operatorEq_iff_presentKeys (a b : ShortDoubleMetaphone) :
    (operatorEq a b = true ↔
        ∃ k, k ∈ presentKeys (toOptional a) ∧ k ∈ presentKeys (toOptional b))
      ∧ operatorEq a b = fuzzyEqualsSpec (toOptional a) (toOptional b) := by
  constructor
  · rw [operatorEq_iff]
    simp only [mem_presentKeys_toOptional]
    constructor
    · rintro (h | ⟨h1, h⟩ | ⟨h1, h⟩ | ⟨h1, h2, h⟩)
      · exact ⟨a.m_primaryShortKey, Or.inl rfl, Or.inl h⟩
      · exact ⟨a.m_primaryShortKey, Or.inl rfl, Or.inr ⟨h1, h⟩⟩
      · exact ⟨a.m_alternateShortKey, Or.inr ⟨h1, rfl⟩, Or.inl h⟩
      · exact ⟨a.m_alternateShortKey, Or.inr ⟨h1, rfl⟩, Or.inr ⟨h2, h⟩⟩
    · rintro ⟨k, hk1, hk2⟩
      omega
  · rw [Bool.eq_iff_iff, operatorEq_iff]
    by_cases ha : a.m_alternateShortKey = METAPHONE_INVALID_KEY <;>
      by_cases hb : b.m_alternateShortKey = METAPHONE_INVALID_KEY <;>
      simp [fuzzyEqualsSpec, toOptional, ha, hb, or_assoc]

/-- C6, lossless packing: two code strings of length at most 4 over the
recognised symbols have the same packed key if and only if they are the same
string, strings of different lengths included. -/
theorem metaphoneKeyToUshort_eq_iff (s t : List Char)
    (hs : ∀ c ∈ s, c ∈ symbolAlphabet) (ht : ∀ c ∈ t, c ∈ symbolAlphabet)
    (ls : s.length ≤ 4) (lt : t.length ≤ 4) :
    metaphoneKeyToUshort s = metaphoneKeyToUshort t ↔ s = t :=
  ⟨key_inj_short s t hs ht ls lt, fun h => by rw [h]⟩

/-- C6 at the code strings "KS" and "K", of different lengths. -/
theorem metaphoneKeyToUshort_eq_iff_witness :
    (∀ c ∈ ['K', 'S'], c ∈ symbolAlphabet) ∧ (∀ c ∈ ['K'], c ∈ symbolAlphabet)
      ∧ ['K', 'S'].length ≤ 4 ∧ ['K'].length ≤ 4
      ∧ (metaphoneKeyToUshort ['K', 'S'] = metaphoneKeyToUshort ['K'] ↔ ['K', 'S'] = ['K']) :=
  ⟨by decide, by decide, by decide, by decide,
    metaphoneKeyToUshort_eq_iff ['K', 'S'] ['K'] (by decide) (by decide) (by decide)
      (by decide)⟩

/-- C7, silent truncation of long input: a code string without NUL that is
longer than four characters has the key of its last four characters, and that
key is the same whatever stands in front of those four characters. -/
theorem metaphoneKeyToUshort_truncates (s : List Char) (hs : ∀ c ∈ s, c ≠ NUL)
    (hlen : 4 < s.length) :
    (lastFour s).length = 4
      ∧ metaphoneKeyToUshort s = metaphoneKeyToUshort (lastFour s)
      ∧ ∀ pre : List Char, (∀ c ∈ pre, c ≠ NUL) →
          metaphoneKeyToUshort (pre ++ lastFour s) = metaphoneKeyToUshort s := by
  have h4 := length_lastFour s (Nat.le_of_lt hlen)
  have hl : ∀ c ∈ lastFour s, c ≠ NUL := fun c hc => hs c (mem_of_mem_lastFour s c hc)
  refine ⟨h4, key_eq_key_lastFour s hs, fun pre hpre => ?_⟩
  rw [key_append_four pre (lastFour s) hpre hl h4, ← key_eq_key_lastFour s hs]

/-- C7 at the code string "AKTSN" of five symbols, whose key is that of "KTSN". -/
theorem metaphoneKeyToUshort_truncates_witness :
    4 < ['A', 'K', 'T', 'S', 'N'].length
      ∧ lastFour ['A', 'K', 'T', 'S', 'N'] = ['K', 'T', 'S', 'N']
      ∧ metaphoneKeyToUshort ['A', 'K', 'T', 'S', 'N']
          = metaphoneKeyToUshort (lastFour ['A', 'K', 'T', 'S', 'N']) :=
  ⟨by decide, by decide,
    (metaphoneKeyToUshort_truncates ['A', 'K', 'T', 'S', 'N'] (by decide) (by decide)).2.1⟩

/-- C8, unmapped characters encode to 0: a character that is neither NUL nor one
of the fourteen recognised symbols gets the code 0, the one-character string
made of it packs to 0, and inside any code string without NUL it leaves the
nibble 0 at its place (as long as fewer than four characters follow it). -/
theorem unmapped_char_encodes_zero (c : Char) (h0 : c ≠ NUL) (hc : c ∉ symbolAlphabet) :
    charResult c = 0
      ∧ metaphoneKeyToUshort [c] = 0
      ∧ ∀ pre post : List Char, (∀ x ∈ pre, x ≠ NUL) → (∀ x ∈ post, x ≠ NUL) →
          post.length < 4 →
          metaphoneKeyToUshort (pre ++ c :: post) / 16 ^ post.length % 16 = 0 := by
  have hz := charResult_of_not_mem c hc h0
  refine ⟨hz, ?_, fun pre post hpre hpost hlen => ?_⟩
  · rw [key_singleton c h0, hz]
  · unfold metaphoneKeyToUshort
    rw [keyLoop_append _ _ _ hpre, keyLoop_cons _ _ _ h0, nibble_of_keyLoop _ _ hpost hlen, hz]
    omega

/-- C8 at the lowercase letter `a`, alone and in the code string "KaS". -/
theorem unmapped_char_encodes_zero_witness :
    'a' ≠ NUL ∧ 'a' ∉ symbolAlphabet ∧ metaphoneKeyToUshort ['a'] = 0
      ∧ metaphoneKeyToUshort (['K'] ++ 'a' :: ['S']) / 16 ^ ['S'].length % 16 = 0 :=
  ⟨by decide, by decide,
    (unmapped_char_encodes_zero 'a' (by decide) (by decide)).2.1,
    (unmapped_char_encodes_zero 'a' (by decide) (by decide)).2.2 ['K'] ['S'] (by decide)
      (by decide) (by decide)⟩

/-- C9, distinct symbol codes: the comparison chain of `metaphoneKeyToUshort`
gives each of the 14 recognised characters a code between 1 and 15, two
recognised characters with the same code are the same character, and so are two
recognised characters whose one-character strings pack to the same key. -/
theorem symbol_codes_distinct (c d : Char) (hc : c ∈ symbolAlphabet)
    (hd : d ∈ symbolAlphabet) :
    (1 ≤ charResult c ∧ charResult c ≤ 15)
      ∧ (charResult c = charResult d → c = d)
      ∧ (metaphoneKeyToUshort [c] = metaphoneKeyToUshort [d] → c = d)
      ∧ symbolAlphabet.length = 14
      ∧ (symbolAlphabet.map charResult).Nodup := by
  have b := charResult_lt c
  refine ⟨⟨charResult_pos_of_mem c hc, by omega⟩, charResult_injOn c d hc hd, ?_,
    by decide, by decide⟩
  intro h
  rw [key_singleton c (ne_NUL_of_mem c hc), key_singleton d (ne_NUL_of_mem d hd)] at h
  exact charResult_injOn c d hc hd h

/-- C9 at the symbols S and the space. -/
theorem symbol_codes_distinct_witness :
    ('S' ∈ symbolAlphabet ∧ ' ' ∈ symbolAlphabet)
      ∧ (1 ≤ charResult 'S' ∧ charResult 'S' ≤ 15)
      ∧ (metaphoneKeyToUshort ['S'] = metaphoneKeyToUshort [' '] → 'S' = ' ') :=
  ⟨by decide, (symbol_codes_distinct 'S' ' ' (by decide) (by decide)).1,
    (symbol_codes_distinct 'S' ' ' (by decide) (by decide)).2.2.1⟩

/-- C10, recompute overwrite: when `DoubleMetaphone4::computeKeys` leaves in the
base class what the external encoder gives for the word, whatever the base class
held before, the record after `computeKeys(r, w)` has the primary and alternate
short keys of a record freshly constructed from `w`, and is that record. -/
theorem computeKeys_eq_ofWord (encoder : List Char → DoubleMetaphone4)
    (baseComputeKeys : DoubleMetaphone4 → List Char → DoubleMetaphone4)
    (hbase : ∀ b w, baseComputeKeys b w = encoder w)
    (r : ShortDoubleMetaphone) (w : List Char) :
    getPrimaryShortKey (computeKeys baseComputeKeys r w)
        = getPrimaryShortKey (ofWord encoder w)
      ∧ getAlternateShortKey (computeKeys baseComputeKeys r w)
        = getAlternateShortKey (ofWord encoder w)
      ∧ computeKeys baseComputeKeys r w = ofWord encoder w := by
  have e : computeKeys baseComputeKeys r w = ofWord encoder w := by
    unfold computeKeys ofWord ofKeys
    simp only [hbase]
    cases (encoder w).alternateKey <;> rfl
  exact ⟨by rw [e], by rw [e], e⟩

/-- C10 at a record built from ("KS", no alternate), recomputed for the word
"TS" with an encoder that returns the word as primary and as alternate. -/
theorem computeKeys_eq_ofWord_witness :
    (∀ (b : DoubleMetaphone4) (w : List Char),
        (fun _ v => ⟨v, some v⟩ : DoubleMetaphone4 → List Char → DoubleMetaphone4) b w
          = (fun v => ⟨v, some v⟩ : List Char → DoubleMetaphone4) w)
      ∧ computeKeys (fun _ v => ⟨v, some v⟩) (ofKeys ⟨['K', 'S'], none⟩) ['T', 'S']
          = ofWord (fun v => ⟨v, some v⟩) ['T', 'S'] :=
  ⟨fun _ _ => rfl,
    (computeKeys_eq_ofWord (fun v => ⟨v, some v⟩) (fun _ v => ⟨v, some v⟩) (fun _ _ => rfl)
      (ofKeys ⟨['K', 'S'], none⟩) ['T', 'S']).2.2⟩

/-- C11, construction contract: the record constructed from a primary code
string `p` and an optional alternate has `metaphoneKeyToUshort p` as primary
short key; its alternate short key is `METAPHONE_INVALID_KEY` when the word has
no alternate key and the packed alternate when there is one.  The same holds
for the record constructed from a word through any encoder. -/
theorem ofKeys_shortKeys (p : List Char) (alt : List Char)
    (encoder : List Char → DoubleMetaphone4) (word : List Char) :
    getPrimaryShortKey (ofKeys ⟨p, none⟩) = metaphoneKeyToUshort p
      ∧ getAlternateShortKey (ofKeys ⟨p, none⟩) = METAPHONE_INVALID_KEY
      ∧ getPrimaryShortKey (ofKeys ⟨p, some alt⟩) = metaphoneKeyToUshort p
      ∧ getAlternateShortKey (ofKeys ⟨p, some alt⟩) = metaphoneKeyToUshort alt
      ∧ getPrimaryShortKey (ofWord encoder word)
          = metaphoneKeyToUshort (encoder word).primaryKey
      ∧ getAlternateShortKey (ofWord encoder word)
          = ((encoder word).alternateKey.map metaphoneKeyToUshort).getD
              METAPHONE_INVALID_KEY := by
  refine ⟨rfl, rfl, rfl, rfl, rfl, ?_⟩
  unfold ofWord ofKeys getAlternateShortKey
  cases (encoder word).alternateKey <;> rfl

/-- C12, non-transitivity: there are records `a`, `b`, `c` with the primary of
`a` equal to the present alternate of `b`, the primary of `b` equal to the
present alternate of `c`, the primary of `a` different from both keys of `c`,
for which `a == b` and `b == c` are true and `a == c` is false.  They are the
records of ("TS", no alternate), ("KS", alternate "TS") and ("FX", alternate
"KS"). -/
theorem operatorEq_not_transitive :
    ∃ a b c : ShortDoubleMetaphone,
      a.m_primaryShortKey = b.m_alternateShortKey
        ∧ b.m_alternateShortKey ≠ METAPHONE_INVALID_KEY
        ∧ b.m_primaryShortKey = c.m_alternateShortKey
        ∧ c.m_alternateShortKey ≠ METAPHONE_INVALID_KEY
        ∧ a.m_primaryShortKey ≠ c.m_primaryShortKey
        ∧ a.m_primaryShortKey ≠ c.m_alternateShortKey
        ∧ operatorEq a b = true ∧ operatorEq b c = true ∧ operatorEq a c = false :=
  ⟨ofKeys ⟨['T', 'S'], none⟩, ofKeys ⟨['K', 'S'], some ['T', 'S']⟩,
    ofKeys ⟨['F', 'X'], some ['K', 'S']⟩, by decide⟩

/-- C13, reflexivity: for every record `a`, whatever its primary and alternate
keys (the sentinel included), `a == a` is true and `a != a` is false. -/
theorem operatorEq_refl (a : ShortDoubleMetaphone) :
    operatorEq a a = true ∧ operatorNe a a = false := by
  have h : operatorEq a a = true := by
    rw [operatorEq_iff]
    exact Or.inl rfl
  refine ⟨h, ?_⟩
  unfold operatorNe
  rw [h]
  rfl

/-- C14, empty-string identity: the empty code string packs to 0, and so does
any C string whose first character is the terminating NUL. -/
theorem metaphoneKeyToUshort_empty (rest : List Char) :
    metaphoneKeyToUshort [] = 0 ∧ metaphoneKeyToUshort (NUL :: rest) = 0 := by
  refine ⟨rfl, ?_⟩
  unfold metaphoneKeyToUshort
  rw [keyLoop, if_pos rfl]

/-- C15, exact extent of the sentinel value: a code string without NUL packs to
0xFFFF if and only if it has at least four characters and its last four
characters are all the space character. -/
theorem metaphoneKeyToUshort_eq_invalid_key_iff (s : List Char) (hs : ∀ c ∈ s, c ≠ NUL) :
    metaphoneKeyToUshort s = 0xFFFF ↔ (4 ≤ s.length ∧ ∀ c ∈ lastFour s, c = ' ') := by
  have v : METAPHONE_INVALID_KEY = 0xFFFF := rfl
  rw [← v, key_eq_invalid_iff s hs, lastFour_eq_fourSpaces_iff]

/-- C15 at the code string "K    ", a K followed by four spaces. -/
theorem metaphoneKeyToUshort_eq_invalid_key_iff_witness :
    (∀ c ∈ ['K', ' ', ' ', ' ', ' '], c ≠ NUL)
      ∧ metaphoneKeyToUshort ['K', ' ', ' ', ' ', ' '] = 0xFFFF
      ∧ (metaphoneKeyToUshort ['K', ' ', ' ', ' ', ' '] = 0xFFFF ↔
          (4 ≤ ['K', ' ', ' ', ' ', ' '].length
            ∧ ∀ c ∈ lastFour ['K', ' ', ' ', ' ', ' '], c = ' ')) :=
  ⟨by decide, by decide,
    metaphoneKeyToUshort_eq_invalid_key_iff ['K', ' ', ' ', ' ', ' '] (by decide)⟩

/-- C16, the code `METAPHONE_0` is never emitted: for every C string, read up to
its first NUL, the key fits in 16 bits and none of its four nibbles is
`METAPHONE_0` (0xE). -/
theorem metaphoneKeyToUshort_nibble_ne_METAPHONE_0 (s : List Char) :
    metaphoneKeyToUshort s < 65536
      ∧ metaphoneKeyToUshort s % 16 ≠ METAPHONE_0
      ∧ metaphoneKeyToUshort s / 16 % 16 ≠ METAPHONE_0
      ∧ metaphoneKeyToUshort s / 256 % 16 ≠ METAPHONE_0
      ∧ metaphoneKeyToUshort s / 4096 % 16 ≠ METAPHONE_0 := by
  have v : METAPHONE_0 = 14 := rfl
  rw [v]
  exact ⟨keyLoop_lt s 0 (by decide), keyLoop_nibbles s 0 (by decide)⟩

/-- C17, without alternates the relation is plain key equality: for records
whose alternate keys are the absent sentinel, `a == b` is true if and only if
the primary keys are equal; on such records `==` is reflexive, symmetric and
transitive. -/
theorem operatorEq_of_absent_alternates (a b c : ShortDoubleMetaphone)
    (ha : a.m_alternateShortKey = METAPHONE_INVALID_KEY)
    (hb : b.m_alternateShortKey = METAPHONE_INVALID_KEY)
    (hc : c.m_alternateShortKey = METAPHONE_INVALID_KEY) :
    (operatorEq a b = true ↔ a.m_primaryShortKey = b.m_primaryShortKey)
      ∧ operatorEq a a = true
      ∧ (operatorEq a b = true → operatorEq b a = true)
      ∧ (operatorEq a b = true → operatorEq b c = true → operatorEq a c = true) := by
  refine ⟨?_, ?_, ?_, ?_⟩
  · rw [operatorEq_iff]
    constructor <;> intro h <;> omega
  · rw [operatorEq_iff]
    exact Or.inl rfl
  · rw [operatorEq_iff, operatorEq_iff]
    intro h
    omega
  · rw [operatorEq_iff, operatorEq_iff, operatorEq_iff]
    intro h1 h2
    omega

/-- C17 at the records of "KS" and "TS" without alternates. -/
theorem operatorEq_of_absent_alternates_witness :
    (ofKeys ⟨['K', 'S'], none⟩).m_alternateShortKey = METAPHONE_INVALID_KEY
      ∧ (operatorEq (ofKeys ⟨['K', 'S'], none⟩) (ofKeys ⟨['T', 'S'], none⟩) = true ↔
          (ofKeys ⟨['K', 'S'], none⟩).m_primaryShortKey
            = (ofKeys ⟨['T', 'S'], none⟩).m_primaryShortKey) :=
  ⟨by decide,
    (operatorEq_of_absent_alternates (ofKeys ⟨['K', 'S'], none⟩) (ofKeys ⟨['T', 'S'], none⟩)
      (ofKeys ⟨['K', 'S'], none⟩) (by decide) (by decide) (by decide)).1⟩

/-- C18, the default-constructed record: it stores 0 in both short keys, not the
absent sentinel, and under `==` it behaves, on either side, as the record with
primary key 0 and absent alternate. -/
theorem mkDefault_interchangeable (base base0 : DoubleMetaphone4) (b : ShortDoubleMetaphone) :
    getPrimaryShortKey (mkDefault base) = 0
      ∧ getAlternateShortKey (mkDefault base) = 0
      ∧ getAlternateShortKey (mkDefault base) ≠ METAPHONE_INVALID_KEY
      ∧ operatorEq (mkDefault base) b = operatorEq ⟨base0, 0, METAPHONE_INVALID_KEY⟩ b
      ∧ operatorEq b (mkDefault base) = operatorEq b ⟨base0, 0, METAPHONE_INVALID_KEY⟩ := by
  have v : METAPHONE_INVALID_KEY = 65535 := rfl
  have z : (0 : Nat) ≠ METAPHONE_INVALID_KEY := by decide
  refine ⟨rfl, rfl, z, ?_, ?_⟩
  · rw [Bool.eq_iff_iff, operatorEq_iff, operatorEq_iff]
    simp only [mkDefault]
    omega
  · rw [Bool.eq_iff_iff, operatorEq_iff, operatorEq_iff]
    simp only [mkDefault]
    omega

/-- C19, the two-letter ID constants agree with the encoder: the code strings
"FX", "KL", "KN", "KS", "SK", "TK", "TS" pack to `METAPHONE_FX` (0x2D),
`METAPHONE_KL` (0x56), `METAPHONE_KN` (0x58), `METAPHONE_KS` (0x5A),
`METAPHONE_SK` (0xA5), `METAPHONE_TK` (0xB5), `METAPHONE_TS` (0xBA). -/
theorem metaphoneKeyToUshort_two_letter_ids :
    (metaphoneKeyToUshort ['F', 'X'] = METAPHONE_FX ∧ METAPHONE_FX = 0x2D)
      ∧ (metaphoneKeyToUshort ['K', 'L'] = METAPHONE_KL ∧ METAPHONE_KL = 0x56)
      ∧ (metaphoneKeyToUshort ['K', 'N'] = METAPHONE_KN ∧ METAPHONE_KN = 0x58)
      ∧ (metaphoneKeyToUshort ['K', 'S'] = METAPHONE_KS ∧ METAPHONE_KS = 0x5A)
      ∧ (metaphoneKeyToUshort ['S', 'K'] = METAPHONE_SK ∧ METAPHONE_SK = 0xA5)
      ∧ (metaphoneKeyToUshort ['T', 'K'] = METAPHONE_TK ∧ METAPHONE_TK = 0xB5)
      ∧ (metaphoneKeyToUshort ['T', 'S'] = METAPHONE_TS ∧ METAPHONE_TS = 0xBA) := by
  decide

end ShortDoubleMetaphone

end MetaphoneLib
